import Mathlib

/-!
Verification of the SNARK-MPC powers-of-tau ceremony (src/main.rs).

Group elements of G1, G2 and the pairing target group are cyclic of prime
order, so we embed them by their discrete logarithms over the scalar field:
an element a.G is represented by the scalar a, scalar multiplication becomes
ring multiplication, point addition becomes ring addition, the identity point
is 0, the fixed generator is 1, and the pairing e(a.G1, b.G2) is represented
by the product a * b (equality in the target group is equality of these
products).  All statements are proved over an arbitrary commutative ring,
which subsumes the concrete prime scalar field of MNT6-753.

External collaborators (out of scope per the ceremony design): the BLAKE2b
hash and the ChaCha sampling of a G2 point are abstract function parameters;
the per-thread RNG draws of merge_pairs and the secret scalars of keypair are
universally quantified arguments.  Fallible operations (Rust assertions,
panics, slice-index underflow) are modelled by Option, with none for a panic.
-/

section Kernel

variable {F : Type} [CommRing F]

/-- Splits a list into chunks of size m+1 (the Rust code always calls its
chunking with a strictly positive chunk size). -/
def chunkify {α : Type} (m : ℕ) : List α → List (List α)
  | [] => []
  | a :: l => (a :: l.take m) :: chunkify m (l.drop m)
termination_by l => l.length
decreasing_by simp only [List.length_drop, List.length_cons]; omega

/-- The sequential inner loop of a merge_pairs worker: starting at absolute
index i, draw the coefficient r i for each pair and accumulate the two
weighted sums (local_s, local_sx). -/
def wsum2 (r : ℕ → F) : ℕ → List (F × F) → F × F
  | _, [] => (0, 0)
  | i, p :: t =>
    let rest := wsum2 r (i + 1) t
    (r i * p.1 + rest.1, r i * p.2 + rest.2)

/-- The per-worker partial sums of merge_pairs: the zipped input is cut into
chunks of size len/ncpus + 1 and worker k accumulates its chunk, drawing the
coefficients for absolute indices starting at k * chunk_size. -/
def localSums (ncpus : ℕ) (r : ℕ → F) (w : List (F × F)) : List (F × F) :=
  (List.enumFrom 0 (chunkify (w.length / ncpus) w)).map
    (fun p => wsum2 r (p.1 * (w.length / ncpus + 1)) p.2)

/-- merge_pairs (src/main.rs:87): asserts the two slices have equal length,
then computes the random linear combination (sum r_i * v1_i, sum r_i * v2_i)
by chunked parallel workers whose partial sums are folded together.  A failed
assertion is modelled by none. -/
def merge_pairs (ncpus : ℕ) (r : ℕ → F) (v1 v2 : List F) : Option (F × F) :=
  if v1.length = v2.length then
    some (((localSums ncpus r (v1.zip v2)).map Prod.fst).sum,
          ((localSums ncpus r (v1.zip v2)).map Prod.snd).sum)
  else none

/-- power_pairs (src/main.rs:131): merge_pairs on the slices v[0..n-1] and
v[1..].  On an empty vector the Rust expression v.len() - 1 underflows and
panics, modelled by none. -/
def power_pairs (ncpus : ℕ) (r : ℕ → F) (v : List F) : Option (F × F) :=
  if v.length = 0 then none
  else merge_pairs ncpus r (v.take (v.length - 1)) (v.drop 1)

/-- same_ratio (src/main.rs:70): e(g1.0, g2.1) == e(g1.1, g2.0), in discrete
logarithm representation of the pairing. -/
def same_ratio (p q : F × F) : Prop := p.1 * q.2 = p.2 * q.1

instance same_ratio_dec [DecidableEq F] (p q : F × F) : Decidable (same_ratio p q) :=
  inferInstanceAs (Decidable (p.1 * q.2 = p.2 * q.1))

lemma wsum2_append (r : ℕ → F) (b : List (F × F)) (a : List (F × F)) (i : ℕ) :
    wsum2 r i (a ++ b) = ((wsum2 r i a).1 + (wsum2 r (i + a.length) b).1,
                          (wsum2 r i a).2 + (wsum2 r (i + a.length) b).2) := by
  induction a generalizing i with
  | nil => simp [wsum2]
  | cons p t ih =>
    have e1 : wsum2 r i ((p :: t) ++ b)
        = (r i * p.1 + (wsum2 r (i + 1) (t ++ b)).1,
           r i * p.2 + (wsum2 r (i + 1) (t ++ b)).2) := rfl
    have e2 : wsum2 r i (p :: t)
        = (r i * p.1 + (wsum2 r (i + 1) t).1,
           r i * p.2 + (wsum2 r (i + 1) t).2) := rfl
    rw [e1, e2, ih (i + 1)]
    have hidx : i + 1 + t.length = i + (p :: t).length := by
      simp only [List.length_cons]; omega
    rw [hidx]
    simp only [Prod.mk.injEq]
    constructor <;> ring

lemma wsum2_eq_sum (r : ℕ → F) (w : List (F × F)) (k : ℕ) :
    wsum2 r k w = (∑ i ∈ Finset.range w.length, r (k + i) * (w.getD i (0, 0)).1,
                   ∑ i ∈ Finset.range w.length, r (k + i) * (w.getD i (0, 0)).2) := by
  induction w generalizing k with
  | nil => simp [wsum2]
  | cons p t ih =>
    have e : wsum2 r k (p :: t)
        = (r k * p.1 + (wsum2 r (k + 1) t).1,
           r k * p.2 + (wsum2 r (k + 1) t).2) := rfl
    rw [e, ih (k + 1)]
    simp only [List.length_cons, Finset.sum_range_succ', List.getD_cons_succ,
      List.getD_cons_zero, add_zero, Prod.mk.injEq]
    constructor <;>
    · rw [add_comm]
      congr 1
      apply Finset.sum_congr rfl
      intro i _
      have hidx : k + 1 + i = k + (i + 1) := by omega
      rw [hidx]

lemma list_sum_fst (l : List (F × F)) : (l.map Prod.fst).sum = l.sum.1 := by
  induction l with
  | nil => simp
  | cons p t ih => simp [ih]

lemma list_sum_snd (l : List (F × F)) : (l.map Prod.snd).sum = l.sum.2 := by
  induction l with
  | nil => simp
  | cons p t ih => simp [ih]

lemma chunk_sum (r : ℕ → F) (m : ℕ) :
    ∀ (n : ℕ) (w : List (F × F)), w.length ≤ n → ∀ k,
    ((List.enumFrom k (chunkify m w)).map (fun p => wsum2 r (p.1 * (m + 1)) p.2)).sum
      = wsum2 r (k * (m + 1)) w := by
  intro n
  induction n with
  | zero =>
    intro w hw k
    have hnil : w = [] := List.length_eq_zero.mp (Nat.le_zero.mp hw)
    subst hnil
    simp [chunkify, wsum2, Prod.ext_iff]
  | succ n ih =>
    intro w hw k
    cases w with
    | nil => simp [chunkify, wsum2, Prod.ext_iff]
    | cons a t =>
      have hbound : (t.drop m).length ≤ n := by
        simp only [List.length_drop]
        simp only [List.length_cons] at hw
        omega
      rw [chunkify]
      simp only [List.enumFrom, List.map_cons, List.sum_cons]
      rw [ih (t.drop m) hbound (k + 1)]
      have hsplit : a :: t = (a :: t.take m) ++ t.drop m := by
        simp [List.take_append_drop]
      rw [hsplit, wsum2_append]
      rcases le_or_lt m t.length with hm | hm
      · have hlen : (a :: t.take m).length = m + 1 := by
          simp [List.length_take, Nat.min_eq_left hm]
        rw [hlen]
        have harith : k * (m + 1) + (m + 1) = (k + 1) * (m + 1) := by ring
        rw [harith]
        simp [Prod.ext_iff, Prod.fst_add, Prod.snd_add]
      · have hdrop : t.drop m = [] := by
          apply List.drop_eq_nil_of_le
          omega
        have htake : t.take m = t := List.take_of_length_le (by omega)
        rw [hdrop, htake]
        simp [wsum2, Prod.ext_iff, Prod.fst_add, Prod.snd_add]

lemma localSums_sum (ncpus : ℕ) (r : ℕ → F) (w : List (F × F)) :
    (localSums ncpus r w).sum = wsum2 r 0 w := by
  unfold localSums
  rw [chunk_sum r (w.length / ncpus) w.length w le_rfl 0]
  simp

lemma merge_pairs_eq (ncpus : ℕ) (r : ℕ → F) (v1 v2 : List F)
    (h : v1.length = v2.length) :
    merge_pairs ncpus r v1 v2
      = some (∑ i ∈ Finset.range v1.length, r i * v1.getD i 0,
              ∑ i ∈ Finset.range v1.length, r i * v2.getD i 0) := by
  unfold merge_pairs
  rw [if_pos h, list_sum_fst, list_sum_snd, localSums_sum, wsum2_eq_sum]
  have hlen : (v1.zip v2).length = v1.length := by
    simp [List.length_zip, h]
  have hfst : ∀ i, i < v1.length → ((v1.zip v2).getD i (0, 0)).1 = v1.getD i 0 := by
    intro i hi1
    have hi2 : i < v2.length := h ▸ hi1
    have hiz : i < (v1.zip v2).length := by rw [hlen]; exact hi1
    rw [List.getD_eq_getElem _ _ hiz, List.getD_eq_getElem _ _ hi1, List.getElem_zip]
  have hsnd : ∀ i, i < v1.length → ((v1.zip v2).getD i (0, 0)).2 = v2.getD i 0 := by
    intro i hi1
    have hi2 : i < v2.length := h ▸ hi1
    have hiz : i < (v1.zip v2).length := by rw [hlen]; exact hi1
    rw [List.getD_eq_getElem _ _ hiz, List.getD_eq_getElem _ _ hi2, List.getElem_zip]
  simp only [hlen, Option.some.injEq, Prod.mk.injEq, zero_add]
  constructor
  · exact Finset.sum_congr rfl fun i hi => by rw [hfst i (Finset.mem_range.mp hi)]
  · exact Finset.sum_congr rfl fun i hi => by rw [hsnd i (Finset.mem_range.mp hi)]

lemma power_pairs_eq (ncpus : ℕ) (r : ℕ → F) (v : List F) (h : v.length ≠ 0) :
    power_pairs ncpus r v
      = some (∑ i ∈ Finset.range (v.length - 1), r i * v.getD i 0,
              ∑ i ∈ Finset.range (v.length - 1), r i * v.getD (i + 1) 0) := by
  unfold power_pairs
  rw [if_neg h]
  have hlt : v.length - 1 ≤ v.length := Nat.sub_le _ _
  have h1 : (v.take (v.length - 1)).length = v.length - 1 := by
    simp [List.length_take, Nat.min_eq_left hlt]
  have h2 : (v.drop 1).length = v.length - 1 := by simp
  rw [merge_pairs_eq ncpus r _ _ (by rw [h1, h2]), h1]
  have hfst : ∀ i, i < v.length - 1 → (v.take (v.length - 1)).getD i 0 = v.getD i 0 := by
    intro i hi1
    have hiv : i < v.length := by omega
    have hit : i < (v.take (v.length - 1)).length := by rw [h1]; exact hi1
    rw [List.getD_eq_getElem _ _ hit, List.getD_eq_getElem _ _ hiv, List.getElem_take]
  have hsnd : ∀ i, i < v.length - 1 → (v.drop 1).getD i 0 = v.getD (i + 1) 0 := by
    intro i hi1
    have hiv : i + 1 < v.length := by omega
    have hid : i < (v.drop 1).length := by rw [h2]; exact hi1
    rw [List.getD_eq_getElem _ _ hid, List.getD_eq_getElem _ _ hiv, List.getElem_drop]
    congr 1
    omega
  simp only [Option.some.injEq, Prod.mk.injEq]
  constructor
  · exact Finset.sum_congr rfl fun i hi => by rw [hfst i (Finset.mem_range.mp hi)]
  · exact Finset.sum_congr rfl fun i hi => by rw [hsnd i (Finset.mem_range.mp hi)]

end Kernel

/-- TAU_POWERS_LENGTH (src/main.rs:153): the accumulator supports circuits
with 2^n multiplication gates; the source sets n = 5. -/
def TAU_POWERS_LENGTH : ℕ := 1 <<< 5

/-- TAU_POWERS_G1_LENGTH (src/main.rs:158). -/
def TAU_POWERS_G1_LENGTH : ℕ := (TAU_POWERS_LENGTH <<< 1) - 1

/-- The Accumulator (src/main.rs:168), each group element represented by its
discrete logarithm. -/
structure Accumulator (F : Type) where
  tau_powers_g1 : List F
  tau_powers_g2 : List F
  alpha_tau_powers_g1 : List F
  beta_tau_powers_g1 : List F
  beta_g2 : F
deriving DecidableEq

/-- PrivateKey (src/main.rs:403): the secrets tau, alpha, beta. -/
structure PrivateKey (F : Type) where
  tau : F
  alpha : F
  beta : F
deriving DecidableEq

/-- PublicKey (src/main.rs:393). -/
structure PublicKey (F : Type) where
  tau_g1 : F × F
  alpha_g1 : F × F
  beta_g1 : F × F
  tau_g2 : F
  alpha_g2 : F
  beta_g2 : F
deriving DecidableEq

section Transform

variable {F : Type} [CommRing F]

/-- Accumulator::new (src/main.rs:189): the initial accumulator, every slot
the generator (discrete logarithm 1). -/
def Accumulator.new (F : Type) [CommRing F] : Accumulator F where
  tau_powers_g1 := List.replicate TAU_POWERS_G1_LENGTH 1
  tau_powers_g2 := List.replicate TAU_POWERS_LENGTH 1
  alpha_tau_powers_g1 := List.replicate TAU_POWERS_LENGTH 1
  beta_tau_powers_g1 := List.replicate TAU_POWERS_LENGTH 1
  beta_g2 := 1

/-- One worker of the parallel taupowers construction (src/main.rs:209):
starting from the accumulator value a, write it and repeatedly multiply
by tau. -/
def powRun (tau a : F) : ℕ → List F
  | 0 => []
  | n + 1 => a :: powRun tau (a * tau) n

/-- The chunked parallel construction of the vector of powers of tau
(src/main.rs:205): the vector of the given total length is split into chunks
of size cs and worker i starts from tau ^ (i * cs). -/
def taupowersOf (tau : F) (cs total : ℕ) : List F :=
  ((List.enumFrom 0 (chunkify (cs - 1) (List.range total))).map
    (fun p => powRun tau (tau ^ (p.1 * cs)) p.2.length)).flatten

/-- batch_exp (src/main.rs:223): asserts equal lengths, then multiplies each
base by the matching exponent, with the optional coefficient applied to the
exponent first.  A failed assertion is modelled by none. -/
def batch_exp (bases exps : List F) (coeff : Option F) : Option (List F) :=
  if bases.length = exps.length then
    some ((bases.zip exps).map fun p => p.1 * (coeff.elim p.2 fun c => p.2 * c))
  else none

/-- Accumulator::transform (src/main.rs:203).  The chunk size of the
taupowers construction is TAU_POWERS_G1_LENGTH / ncpus with no rounding up;
a zero chunk size would make the Rust chunking panic, modelled by none. -/
def Accumulator.transform (ncpus : ℕ) (acc : Accumulator F) (key : PrivateKey F) :
    Option (Accumulator F) :=
  let cs := TAU_POWERS_G1_LENGTH / ncpus
  if cs = 0 then none
  else
    let taupowers := taupowersOf key.tau cs TAU_POWERS_G1_LENGTH
    do
      let t1 ← batch_exp acc.tau_powers_g1 taupowers none
      let t2 ← batch_exp acc.tau_powers_g2 (taupowers.take TAU_POWERS_LENGTH) none
      let a1 ← batch_exp acc.alpha_tau_powers_g1 (taupowers.take TAU_POWERS_LENGTH)
        (some key.alpha)
      let b1 ← batch_exp acc.beta_tau_powers_g1 (taupowers.take TAU_POWERS_LENGTH)
        (some key.beta)
      some { tau_powers_g1 := t1, tau_powers_g2 := t2, alpha_tau_powers_g1 := a1,
             beta_tau_powers_g1 := b1, beta_g2 := acc.beta_g2 * key.beta }

/-- The declared vector lengths of an accumulator. -/
def declaredLengths (acc : Accumulator F) : Prop :=
  acc.tau_powers_g1.length = TAU_POWERS_G1_LENGTH ∧
  acc.tau_powers_g2.length = TAU_POWERS_LENGTH ∧
  acc.alpha_tau_powers_g1.length = TAU_POWERS_LENGTH ∧
  acc.beta_tau_powers_g1.length = TAU_POWERS_LENGTH

instance declaredLengths_dec (acc : Accumulator F) : Decidable (declaredLengths acc) := by
  unfold declaredLengths
  infer_instance

/-- Closed form of transform on an accumulator of the declared lengths. -/
def transformSpec (acc : Accumulator F) (key : PrivateKey F) : Accumulator F where
  tau_powers_g1 := acc.tau_powers_g1.mapIdx fun i g => g * key.tau ^ i
  tau_powers_g2 := acc.tau_powers_g2.mapIdx fun i g => g * key.tau ^ i
  alpha_tau_powers_g1 := acc.alpha_tau_powers_g1.mapIdx fun i g => g * (key.tau ^ i * key.alpha)
  beta_tau_powers_g1 := acc.beta_tau_powers_g1.mapIdx fun i g => g * (key.tau ^ i * key.beta)
  beta_g2 := acc.beta_g2 * key.beta

lemma powRun_eq (tau : F) : ∀ (n : ℕ) (a : F),
    powRun tau a n = (List.range n).map (fun j => a * tau ^ j) := by
  intro n
  induction n with
  | zero => intro a; simp [powRun]
  | succ n ih =>
    intro a
    have e : powRun tau a (n + 1) = a :: powRun tau (a * tau) n := rfl
    rw [e, ih (a * tau), List.range_succ_eq_map]
    simp only [List.map_cons, List.map_map, pow_zero, mul_one]
    congr 1
    apply List.map_congr_left
    intro j _
    simp only [Function.comp_apply, Nat.succ_eq_add_one, pow_succ]
    ring

lemma chunked_powers (tau : F) (m : ℕ) :
    ∀ (n : ℕ) (l : List ℕ), l.length ≤ n → ∀ k,
    ((List.enumFrom k (chunkify m l)).map
        (fun p => powRun tau (tau ^ (p.1 * (m + 1))) p.2.length)).flatten
      = (List.range l.length).map (fun j => tau ^ (k * (m + 1) + j)) := by
  intro n
  induction n with
  | zero =>
    intro l hl k
    have hnil : l = [] := List.length_eq_zero.mp (Nat.le_zero.mp hl)
    subst hnil
    simp [chunkify]
  | succ n ih =>
    intro l hl k
    cases l with
    | nil => simp [chunkify]
    | cons a t =>
      have hbound : (t.drop m).length ≤ n := by
        simp only [List.length_drop]
        simp only [List.length_cons] at hl
        omega
      rw [chunkify]
      simp only [List.enumFrom, List.map_cons, List.flatten_cons]
      rw [ih (t.drop m) hbound (k + 1), powRun_eq]
      rcases le_or_lt m t.length with hm | hm
      · have hlen1 : (a :: t.take m).length = m + 1 := by
          simp only [List.length_cons, List.length_take]
          omega
        have hlen2 : (t.drop m).length = t.length - m := by simp
        rw [hlen1, hlen2, List.length_cons]
        have hsplit : t.length + 1 = (m + 1) + (t.length - m) := by omega
        rw [hsplit]
        have hr : (List.range ((m + 1) + (t.length - m))).map
              (fun j => tau ^ (k * (m + 1) + j))
            = (List.range (m + 1)).map (fun j => tau ^ (k * (m + 1) + j))
              ++ (List.range (t.length - m)).map
                  (fun j => tau ^ (k * (m + 1) + ((m + 1) + j))) := by
          rw [List.range_add, List.map_append, List.map_map]
          rfl
        rw [hr]
        congr 1
        · apply List.map_congr_left
          intro j _
          rw [← pow_add]
        · apply List.map_congr_left
          intro j _
          congr 1
          ring
      · have hdrop : t.drop m = [] := List.drop_eq_nil_of_le (by omega)
        have htake : t.take m = t := List.take_of_length_le (by omega)
        rw [hdrop, htake]
        simp only [List.length_nil, List.range_zero, List.map_nil, List.append_nil,
          List.length_cons]
        apply List.map_congr_left
        intro j _
        rw [← pow_add]

lemma taupowersOf_eq (tau : F) (cs total : ℕ) (hcs : cs ≠ 0) :
    taupowersOf tau cs total = (List.range total).map (tau ^ ·) := by
  unfold taupowersOf
  have hm : cs - 1 + 1 = cs := by omega
  have := chunked_powers tau (cs - 1) (List.range total).length (List.range total) le_rfl 0
  rw [hm] at this
  rw [this]
  simp

lemma zip_range_map (g : F → F → F) :
    ∀ (l : List F) (f : ℕ → F),
    (l.zip ((List.range l.length).map f)).map (fun p => g p.1 p.2)
      = l.mapIdx fun i a => g a (f i) := by
  intro l
  induction l with
  | nil => simp
  | cons a t ih =>
    intro f
    rw [List.length_cons, List.range_succ_eq_map]
    simp only [List.map_cons, List.zip_cons_cons, List.mapIdx_cons, List.map_map]
    congr 1
    exact ih (fun j => f (j + 1))

lemma batch_exp_none_eq (bases : List F) (f : ℕ → F) (h : bases.length = n) :
    batch_exp bases ((List.range n).map f) none
      = some (bases.mapIdx fun i a => a * f i) := by
  subst h
  unfold batch_exp
  rw [if_pos (by simp)]
  congr 1
  exact zip_range_map (fun a e => a * e) bases f

lemma batch_exp_some_eq (bases : List F) (f : ℕ → F) (c : F) (h : bases.length = n) :
    batch_exp bases ((List.range n).map f) (some c)
      = some (bases.mapIdx fun i a => a * (f i * c)) := by
  subst h
  unfold batch_exp
  rw [if_pos (by simp)]
  congr 1
  exact zip_range_map (fun a e => a * (e * c)) bases f

lemma transform_eq (ncpus : ℕ) (acc : Accumulator F) (key : PrivateKey F)
    (hacc : declaredLengths acc) (hcs : TAU_POWERS_G1_LENGTH / ncpus ≠ 0) :
    Accumulator.transform ncpus acc key = some (transformSpec acc key) := by
  obtain ⟨h1, h2, h3, h4⟩ := hacc
  have htau : taupowersOf key.tau (TAU_POWERS_G1_LENGTH / ncpus) TAU_POWERS_G1_LENGTH
      = (List.range TAU_POWERS_G1_LENGTH).map (key.tau ^ ·) :=
    taupowersOf_eq _ _ _ hcs
  have htake : ((List.range TAU_POWERS_G1_LENGTH).map (key.tau ^ ·)).take TAU_POWERS_LENGTH
      = (List.range TAU_POWERS_LENGTH).map (key.tau ^ ·) := by
    rw [← List.map_take, List.take_range]
    have hmin : TAU_POWERS_LENGTH ⊓ TAU_POWERS_G1_LENGTH = TAU_POWERS_LENGTH := by decide
    rw [hmin]
  simp only [Accumulator.transform]
  rw [if_neg hcs, htau, htake, batch_exp_none_eq acc.tau_powers_g1 _ h1,
    batch_exp_none_eq acc.tau_powers_g2 _ h2,
    batch_exp_some_eq acc.alpha_tau_powers_g1 _ _ h3,
    batch_exp_some_eq acc.beta_tau_powers_g1 _ _ h4]
  rfl

lemma getD_mapIdx (l : List F) (f : ℕ → F → F) (i : ℕ) (hi : i < l.length) :
    (l.mapIdx f).getD i 0 = f i (l.getD i 0) := by
  rw [List.getD_eq_getElem _ _ (by simpa using hi), List.getD_eq_getElem _ _ hi,
    List.getElem_mapIdx]

lemma getD_replicate' (c : F) (i n : ℕ) (hi : i < n) :
    (List.replicate n c).getD i 0 = c := by
  rw [List.getD_eq_getElem _ _ (by simpa using hi), List.getElem_replicate]

end Transform

section Keys

variable {F : Type} [CommRing F]

/-- hash_to_g2 (src/main.rs:376): asserts the digest has at least 32 bytes
(none otherwise), seeds a ChaCha PRNG with digest[0..32] and samples one G2
element.  The external ChaCha sampling is the abstract function sample, a
deterministic function of the 32-byte seed. -/
def hash_to_g2 (sample : List ℕ → F) (digest : List ℕ) : Option F :=
  if 32 ≤ digest.length then some (sample (digest.take 32)) else none

/-- The composition used by both keypair (src/main.rs:417) and
verify_transform (src/main.rs:465): BLAKE2b(personalization, digest, g1_s,
g1_s_x) fed to hash_to_g2.  The external BLAKE2b hash is the abstract
function blake2b, returning its 64-byte digest as a byte list. -/
def computeG2s (sample : List ℕ → F) (blake2b : ℕ → List ℕ → F → F → List ℕ)
    (pers : ℕ) (digest : List ℕ) (p q : F) : Option F :=
  hash_to_g2 sample (blake2b pers digest p q)

/-- keypair (src/main.rs:410): asserts the transcript digest is 64 bytes,
samples tau, alpha, beta and one random G1 point per secret (all passed here
as arguments), and builds the proof-of-knowledge public key. -/
def keypair (sample : List ℕ → F) (blake2b : ℕ → List ℕ → F → F → List ℕ)
    (digest : List ℕ) (tau alpha beta s_t s_a s_b : F) :
    Option (PublicKey F × PrivateKey F) :=
  if digest.length = 64 then
    (computeG2s sample blake2b 0 digest s_t (s_t * tau)).bind fun g2_t =>
    (computeG2s sample blake2b 1 digest s_a (s_a * alpha)).bind fun g2_a =>
    (computeG2s sample blake2b 2 digest s_b (s_b * beta)).bind fun g2_b =>
    some ({ tau_g1 := (s_t, s_t * tau), alpha_g1 := (s_a, s_a * alpha),
            beta_g1 := (s_b, s_b * beta), tau_g2 := g2_t * tau,
            alpha_g2 := g2_a * alpha, beta_g2 := g2_b * beta },
          { tau := tau, alpha := alpha, beta := beta })
  else none

/-- verify_transform (src/main.rs:457): asserts the digest is 64 bytes, then
runs the chain of pairing checks, short-circuiting to false on the first
failure.  The verifier draws fresh randomness for each of its four
power_pairs calls (the streams r1..r4). -/
def verify_transform [DecidableEq F] (sample : List ℕ → F)
    (blake2b : ℕ → List ℕ → F → F → List ℕ) (before after : Accumulator F)
    (key : PublicKey F) (digest : List ℕ) (ncpus : ℕ) (r1 r2 r3 r4 : ℕ → F) :
    Option Bool :=
  if digest.length = 64 then
    (computeG2s sample blake2b 0 digest key.tau_g1.1 key.tau_g1.2).bind fun tau_g2_s =>
    (computeG2s sample blake2b 1 digest key.alpha_g1.1 key.alpha_g1.2).bind fun alpha_g2_s =>
    (computeG2s sample blake2b 2 digest key.beta_g1.1 key.beta_g1.2).bind fun beta_g2_s =>
    if ¬ same_ratio key.tau_g1 (tau_g2_s, key.tau_g2) then some false
    else if ¬ same_ratio key.alpha_g1 (alpha_g2_s, key.alpha_g2) then some false
    else if ¬ same_ratio key.beta_g1 (beta_g2_s, key.beta_g2) then some false
    else if after.tau_powers_g1.getD 0 0 ≠ 1 then some false
    else if after.tau_powers_g2.getD 0 0 ≠ 1 then some false
    else if ¬ same_ratio (before.tau_powers_g1.getD 1 0, after.tau_powers_g1.getD 1 0)
        (tau_g2_s, key.tau_g2) then some false
    else if ¬ same_ratio
        (before.alpha_tau_powers_g1.getD 0 0, after.alpha_tau_powers_g1.getD 0 0)
        (alpha_g2_s, key.alpha_g2) then some false
    else if ¬ same_ratio
        (before.beta_tau_powers_g1.getD 0 0, after.beta_tau_powers_g1.getD 0 0)
        (beta_g2_s, key.beta_g2) then some false
    else if ¬ same_ratio
        (before.beta_tau_powers_g1.getD 0 0, after.beta_tau_powers_g1.getD 0 0)
        (before.beta_g2, after.beta_g2) then some false
    else (power_pairs ncpus r1 after.tau_powers_g1).bind fun pp1 =>
    if ¬ same_ratio pp1 (after.tau_powers_g2.getD 0 0, after.tau_powers_g2.getD 1 0) then
      some false
    else (power_pairs ncpus r2 after.tau_powers_g2).bind fun pp2 =>
    if ¬ same_ratio (after.tau_powers_g1.getD 0 0, after.tau_powers_g1.getD 1 0) pp2 then
      some false
    else (power_pairs ncpus r3 after.alpha_tau_powers_g1).bind fun pp3 =>
    if ¬ same_ratio pp3 (after.tau_powers_g2.getD 0 0, after.tau_powers_g2.getD 1 0) then
      some false
    else (power_pairs ncpus r4 after.beta_tau_powers_g1).bind fun pp4 =>
    if ¬ same_ratio pp4 (after.tau_powers_g2.getD 0 0, after.tau_powers_g2.getD 1 0) then
      some false
    else some true
  else none

end Keys

/-- Sizes (src/main.rs:12): the four byte sizes of serialized curve points,
obtained from the external serialization library. -/
structure Sizes where
  g1_uncompressed_byte_size : ℕ
  g2_uncompressed_byte_size : ℕ
  g1_compressed_byte_size : ℕ
  g2_compressed_byte_size : ℕ
deriving DecidableEq

/-- Sizes::accumulator_byte_size_with_hash (src/main.rs:40). -/
def Sizes.accumulator_byte_size_with_hash (s : Sizes) : ℕ :=
  (TAU_POWERS_G1_LENGTH * s.g1_uncompressed_byte_size) +
  (TAU_POWERS_LENGTH * s.g2_uncompressed_byte_size) +
  (TAU_POWERS_LENGTH * s.g1_uncompressed_byte_size) +
  (TAU_POWERS_LENGTH * s.g1_uncompressed_byte_size)
  + 32
  + s.g2_uncompressed_byte_size
  + 64

section TransformClaims

variable {F : Type} [CommRing F]

lemma transformSpec_lengths (acc : Accumulator F) (key : PrivateKey F)
    (hacc : declaredLengths acc) : declaredLengths (transformSpec acc key) := by
  obtain ⟨h1, h2, h3, h4⟩ := hacc
  exact ⟨by simp [transformSpec, List.length_mapIdx, h1],
         by simp [transformSpec, List.length_mapIdx, h2],
         by simp [transformSpec, List.length_mapIdx, h3],
         by simp [transformSpec, List.length_mapIdx, h4]⟩

lemma mapIdx_id_of (l : List F) : (l.mapIdx fun _ a => a) = l := by
  induction l with
  | nil => simp
  | cons a t ih => simp [List.mapIdx_cons, ih]

lemma mapIdx_mapIdx' (l : List F) (f g : ℕ → F → F) :
    (l.mapIdx f).mapIdx g = l.mapIdx fun i a => g i (f i a) := by
  induction l generalizing f g with
  | nil => simp
  | cons a t ih => simp [List.mapIdx_cons, ih]

lemma mapIdx_congr' (l : List F) (f g : ℕ → F → F) (h : ∀ i a, f i a = g i a) :
    l.mapIdx f = l.mapIdx g := by
  rw [show f = g from funext fun i => funext fun a => h i a]

lemma transformSpec_one (acc : Accumulator F) :
    transformSpec acc { tau := 1, alpha := 1, beta := 1 } = acc := by
  cases acc with
  | mk t1 t2 a1 b1 bg =>
    simp [transformSpec, one_pow, mul_one, mapIdx_id_of]

lemma transformSpec_comp (acc : Accumulator F) (k1 k2 : PrivateKey F) :
    transformSpec (transformSpec acc k1) k2
      = transformSpec acc { tau := k1.tau * k2.tau, alpha := k1.alpha * k2.alpha,
                            beta := k1.beta * k2.beta } := by
  cases acc with
  | mk t1 t2 a1 b1 bg =>
    simp only [transformSpec, mapIdx_mapIdx', Accumulator.mk.injEq]
    refine ⟨?_, ?_, ?_, ?_, ?_⟩
    · exact mapIdx_congr' _ _ _ fun i a => by rw [mul_pow]; ring
    · exact mapIdx_congr' _ _ _ fun i a => by rw [mul_pow]; ring
    · exact mapIdx_congr' _ _ _ fun i a => by rw [mul_pow]; ring
    · exact mapIdx_congr' _ _ _ fun i a => by rw [mul_pow]; ring
    · ring

/-- Sequential application of a chain of transforms (the ceremony rounds). -/
def applyChain (ncpus : ℕ) (acc : Accumulator F) (keys : List (PrivateKey F)) :
    Option (Accumulator F) :=
  keys.foldlM (fun a k => Accumulator.transform ncpus a k) acc

/-- The componentwise product of a chain of private keys. -/
def prodKey (keys : List (PrivateKey F)) : PrivateKey F :=
  { tau := (keys.map PrivateKey.tau).prod,
    alpha := (keys.map PrivateKey.alpha).prod,
    beta := (keys.map PrivateKey.beta).prod }

lemma prodKey_cons (k : PrivateKey F) (ks : List (PrivateKey F)) :
    prodKey (k :: ks) = { tau := k.tau * (prodKey ks).tau,
                          alpha := k.alpha * (prodKey ks).alpha,
                          beta := k.beta * (prodKey ks).beta } := by
  simp [prodKey, List.prod_cons]

/-- Claim C2: transforming the identity accumulator with a private key
(tau, alpha, beta) yields tau_powers_g1[i] = tau^i, tau_powers_g2[i] = tau^i,
alpha_tau_powers_g1[i] = alpha * tau^i, beta_tau_powers_g1[i] = beta * tau^i
and beta_g2 = beta (discrete-logarithm representation of the claimed group
elements). -/
theorem claim_C2 (key : PrivateKey F) (ncpus : ℕ)
    (hcs : TAU_POWERS_G1_LENGTH / ncpus ≠ 0) :
    ∃ acc', Accumulator.transform ncpus (Accumulator.new F) key = some acc'
      ∧ (∀ i < TAU_POWERS_G1_LENGTH, acc'.tau_powers_g1.getD i 0 = key.tau ^ i)
      ∧ (∀ i < TAU_POWERS_LENGTH, acc'.tau_powers_g2.getD i 0 = key.tau ^ i)
      ∧ (∀ i < TAU_POWERS_LENGTH, acc'.alpha_tau_powers_g1.getD i 0 = key.alpha * key.tau ^ i)
      ∧ (∀ i < TAU_POWERS_LENGTH, acc'.beta_tau_powers_g1.getD i 0 = key.beta * key.tau ^ i)
      ∧ acc'.beta_g2 = key.beta := by
  have hlen : declaredLengths (Accumulator.new F) := by
    unfold declaredLengths Accumulator.new
    simp
  refine ⟨transformSpec (Accumulator.new F) key,
    transform_eq ncpus _ key hlen hcs, ?_, ?_, ?_, ?_, ?_⟩
  · intro i hi
    simp only [transformSpec, Accumulator.new]
    rw [getD_mapIdx _ _ i (by simpa using hi), getD_replicate' _ _ _ hi, one_mul]
  · intro i hi
    simp only [transformSpec, Accumulator.new]
    rw [getD_mapIdx _ _ i (by simpa using hi), getD_replicate' _ _ _ hi, one_mul]
  · intro i hi
    simp only [transformSpec, Accumulator.new]
    rw [getD_mapIdx _ _ i (by simpa using hi), getD_replicate' _ _ _ hi, one_mul, mul_comm]
  · intro i hi
    simp only [transformSpec, Accumulator.new]
    rw [getD_mapIdx _ _ i (by simpa using hi), getD_replicate' _ _ _ hi, one_mul, mul_comm]
  · simp only [transformSpec, Accumulator.new]
    rw [one_mul]

/-- Claim C9: transform preserves the declared vector lengths. -/
theorem claim_C9 (ncpus : ℕ) (acc : Accumulator F) (key : PrivateKey F)
    (hacc : declaredLengths acc) (hcs : TAU_POWERS_G1_LENGTH / ncpus ≠ 0) :
    ∃ acc', Accumulator.transform ncpus acc key = some acc' ∧ declaredLengths acc' :=
  ⟨transformSpec acc key, transform_eq ncpus acc key hacc hcs,
   transformSpec_lengths acc key hacc⟩

/-- Claim C3: a chain of transforms equals the single transform by the
componentwise product key. -/
theorem claim_C3 (ncpus : ℕ) (acc : Accumulator F) (keys : List (PrivateKey F))
    (hacc : declaredLengths acc) (hcs : TAU_POWERS_G1_LENGTH / ncpus ≠ 0) :
    applyChain ncpus acc keys = Accumulator.transform ncpus acc (prodKey keys) := by
  induction keys generalizing acc with
  | nil =>
    rw [show prodKey ([] : List (PrivateKey F)) = { tau := 1, alpha := 1, beta := 1 } from
      rfl, transform_eq ncpus acc _ hacc hcs, transformSpec_one]
    rfl
  | cons k ks ih =>
    have hacc' := transformSpec_lengths acc k hacc
    calc applyChain ncpus acc (k :: ks)
        = (Accumulator.transform ncpus acc k).bind fun a => applyChain ncpus a ks := by
          simp [applyChain, List.foldlM_cons]
      _ = applyChain ncpus (transformSpec acc k) ks := by
          rw [transform_eq ncpus acc k hacc hcs]
          rfl
      _ = Accumulator.transform ncpus (transformSpec acc k) (prodKey ks) := ih _ hacc'
      _ = some (transformSpec (transformSpec acc k) (prodKey ks)) :=
          transform_eq ncpus _ _ hacc' hcs
      _ = some (transformSpec acc (prodKey (k :: ks))) := by
          rw [transformSpec_comp, prodKey_cons]
      _ = Accumulator.transform ncpus acc (prodKey (k :: ks)) :=
          (transform_eq ncpus acc _ hacc hcs).symm

end TransformClaims

section KernelClaims

variable {F : Type} [CommRing F]

/-- Claim C4: merge_pairs on equal-length vectors returns the pair of random
linear combinations with the same coefficient multiplying matching entries,
for every worker count (chunking), and any reordering of the workers' partial
sums yields the same pair. -/
theorem claim_C4 (ncpus : ℕ) (r : ℕ → F) (v1 v2 : List F)
    (h : v1.length = v2.length) :
    merge_pairs ncpus r v1 v2
      = some (∑ i ∈ Finset.range v1.length, r i * v1.getD i 0,
              ∑ i ∈ Finset.range v1.length, r i * v2.getD i 0)
    ∧ ∀ l : List (F × F), l.Perm (localSums ncpus r (v1.zip v2)) →
        ((l.map Prod.fst).sum, (l.map Prod.snd).sum)
          = (∑ i ∈ Finset.range v1.length, r i * v1.getD i 0,
             ∑ i ∈ Finset.range v1.length, r i * v2.getD i 0) := by
  refine ⟨merge_pairs_eq ncpus r v1 v2 h, ?_⟩
  intro l hl
  have h1 : (l.map Prod.fst).sum = ((localSums ncpus r (v1.zip v2)).map Prod.fst).sum :=
    (hl.map Prod.fst).sum_eq
  have h2 : (l.map Prod.snd).sum = ((localSums ncpus r (v1.zip v2)).map Prod.snd).sum :=
    (hl.map Prod.snd).sum_eq
  have hm := merge_pairs_eq ncpus r v1 v2 h
  unfold merge_pairs at hm
  rw [if_pos h, Option.some.injEq, Prod.mk.injEq] at hm
  rw [h1, h2, hm.1, hm.2]

/-- Claim C5: power_pairs is merge_pairs on the adjacent slices, and for a
vector of length at least two the same_ratio check against the ratio x passes
for every draw of the verifier randomness exactly when the vector is a
geometric progression of ratio x. -/
theorem claim_C5 (ncpus : ℕ) (r : ℕ → F) (v : List F) (x : F) (h1 : 1 ≤ v.length) :
    power_pairs ncpus r v = merge_pairs ncpus r (v.take (v.length - 1)) (v.drop 1)
    ∧ (2 ≤ v.length →
        ((∀ i, i + 1 < v.length → v.getD (i + 1) 0 = x * v.getD i 0)
          ↔ ∀ r' : ℕ → F, ∀ p, power_pairs ncpus r' v = some p → same_ratio p (1, x))) := by
  constructor
  · unfold power_pairs
    rw [if_neg (by omega)]
  · intro h2
    constructor
    · intro hgeom r' p hp
      rw [power_pairs_eq ncpus r' v (by omega)] at hp
      have hp' := (Option.some.inj hp).symm
      subst hp'
      unfold same_ratio
      dsimp only
      rw [mul_one, Finset.sum_mul]
      apply Finset.sum_congr rfl
      intro i hi
      have hib := Finset.mem_range.mp hi
      rw [hgeom i (by omega)]
      ring
    · intro hall i hi
      have hp := power_pairs_eq ncpus (fun j => if j = i then 1 else 0) v (by omega)
      have hs := hall (fun j => if j = i then 1 else 0) _ hp
      unfold same_ratio at hs
      dsimp only at hs
      have hmem : i ∈ Finset.range (v.length - 1) := Finset.mem_range.mpr (by omega)
      simp only [ite_mul, one_mul, zero_mul, Finset.sum_ite_eq', hmem, if_pos,
        mul_one] at hs
      rw [← hs]
      ring

/-- Claim C6: hash_to_g2 is a deterministic function of its input and its
output depends only on the first 32 bytes of the digest. -/
theorem claim_C6 (sample : List ℕ → F) (d1 d2 : List ℕ)
    (h1 : 32 ≤ d1.length) (h2 : 32 ≤ d2.length) (h : d1.take 32 = d2.take 32) :
    hash_to_g2 sample d1 = some (sample (d1.take 32))
    ∧ hash_to_g2 sample d1 = hash_to_g2 sample d2 := by
  unfold hash_to_g2
  rw [if_pos h1, if_pos h2, h]
  exact ⟨rfl, rfl⟩

/-- Claim C8 (amended): on empty inputs merge_pairs returns the identity pair
(both components the point at infinity, discrete logarithm 0) while
power_pairs rejects with an error (the length underflow panic); the two do
not behave the same on empty input. -/
theorem claim_C8 (ncpus : ℕ) (r : ℕ → F) :
    merge_pairs ncpus r ([] : List F) [] = some (0, 0)
    ∧ power_pairs ncpus r ([] : List F) = none := by
  constructor
  · rw [merge_pairs_eq ncpus r [] [] rfl]
    simp
  · rfl

/-- Claim C10: merge_pairs fails its length assertion exactly when the two
input vectors have different lengths; on equal lengths, including empty
ones, it returns a result. -/
theorem claim_C10 (ncpus : ℕ) (r : ℕ → F) (v1 v2 : List F) :
    merge_pairs ncpus r v1 v2 = none ↔ v1.length ≠ v2.length := by
  unfold merge_pairs
  by_cases h : v1.length = v2.length
  · simp [h]
  · simp [h]

end KernelClaims

/-- Claim C7: the on-disk accumulator size satisfies the closed formula of
the specification, with TAU_POWERS_G1_LENGTH = 2 * TAU_POWERS_LENGTH - 1. -/
theorem claim_C7 (s : Sizes) :
    s.accumulator_byte_size_with_hash
      = TAU_POWERS_G1_LENGTH * s.g1_uncompressed_byte_size
        + TAU_POWERS_LENGTH * (s.g2_uncompressed_byte_size + 2 * s.g1_uncompressed_byte_size)
        + s.g2_uncompressed_byte_size + 32 + 64
    ∧ TAU_POWERS_G1_LENGTH = 2 * TAU_POWERS_LENGTH - 1 := by
  constructor
  · unfold Sizes.accumulator_byte_size_with_hash
    ring
  · decide

/-- Claim C8 counterexample: at the concrete empty input, merge_pairs does
not reject while power_pairs does, so the two operations do not behave
consistently with each other. -/
theorem claim_C8_counterexample :
    ¬ (merge_pairs 1 (fun _ => (0 : ℤ)) [] [] = none
        ↔ power_pairs 1 (fun _ => (0 : ℤ)) [] = none) := by
  have hm : merge_pairs 1 (fun _ => (0 : ℤ)) [] [] = some (0, 0) := by
    rw [merge_pairs_eq 1 (fun _ => (0 : ℤ)) [] [] rfl]
    simp
  have hp : power_pairs 1 (fun _ => (0 : ℤ)) [] = none := rfl
  rw [hm, hp]
  simp

theorem claim_C4_witness :
    (([1, 2] : List ℤ).length = ([3, 4] : List ℤ).length)
    ∧ merge_pairs 1 (fun _ => (1 : ℤ)) [1, 2] [3, 4] = some (3, 7) := by
  refine ⟨rfl, ?_⟩
  rw [(claim_C4 1 (fun _ => (1 : ℤ)) [1, 2] [3, 4] rfl).1]
  decide

theorem claim_C5_witness :
    1 ≤ ([1, 2, 4] : List ℤ).length
    ∧ (power_pairs 1 (fun _ => (1 : ℤ)) [1, 2, 4]
        = merge_pairs 1 (fun _ => (1 : ℤ))
            (([1, 2, 4] : List ℤ).take (([1, 2, 4] : List ℤ).length - 1))
            (([1, 2, 4] : List ℤ).drop 1)
      ∧ (2 ≤ ([1, 2, 4] : List ℤ).length →
          ((∀ i, i + 1 < ([1, 2, 4] : List ℤ).length →
              ([1, 2, 4] : List ℤ).getD (i + 1) 0 = 2 * ([1, 2, 4] : List ℤ).getD i 0)
            ↔ ∀ r' : ℕ → ℤ, ∀ p, power_pairs 1 r' [1, 2, 4] = some p
                → same_ratio p (1, 2)))) :=
  ⟨by decide, claim_C5 1 (fun _ => (1 : ℤ)) [1, 2, 4] 2 (by decide)⟩

theorem claim_C6_witness :
    32 ≤ (List.replicate 32 0).length ∧ 32 ≤ (List.replicate 32 0 ++ [5]).length
    ∧ (List.replicate 32 0).take 32 = (List.replicate 32 0 ++ [5]).take 32
    ∧ (hash_to_g2 (fun _ => (1 : ℤ)) (List.replicate 32 0)
        = some ((fun _ => (1 : ℤ)) ((List.replicate 32 0).take 32))
      ∧ hash_to_g2 (fun _ => (1 : ℤ)) (List.replicate 32 0)
        = hash_to_g2 (fun _ => (1 : ℤ)) (List.replicate 32 0 ++ [5])) :=
  ⟨by decide, by decide, by decide,
   claim_C6 (fun _ => (1 : ℤ)) (List.replicate 32 0) (List.replicate 32 0 ++ [5])
     (by decide) (by decide) (by decide)⟩

theorem claim_C2_witness :
    TAU_POWERS_G1_LENGTH / 1 ≠ 0
    ∧ ∃ acc', Accumulator.transform 1 (Accumulator.new ℤ)
          { tau := 2, alpha := 3, beta := 5 } = some acc'
        ∧ (∀ i < TAU_POWERS_G1_LENGTH, acc'.tau_powers_g1.getD i 0 = 2 ^ i)
        ∧ (∀ i < TAU_POWERS_LENGTH, acc'.tau_powers_g2.getD i 0 = 2 ^ i)
        ∧ (∀ i < TAU_POWERS_LENGTH, acc'.alpha_tau_powers_g1.getD i 0 = 3 * 2 ^ i)
        ∧ (∀ i < TAU_POWERS_LENGTH, acc'.beta_tau_powers_g1.getD i 0 = 5 * 2 ^ i)
        ∧ acc'.beta_g2 = 5 :=
  ⟨by decide,
   claim_C2 ({ tau := 2, alpha := 3, beta := 5 } : PrivateKey ℤ) 1 (by decide)⟩

theorem claim_C9_witness :
    declaredLengths (Accumulator.new ℤ) ∧ TAU_POWERS_G1_LENGTH / 1 ≠ 0
    ∧ ∃ acc', Accumulator.transform 1 (Accumulator.new ℤ)
          { tau := 2, alpha := 3, beta := 5 } = some acc' ∧ declaredLengths acc' :=
  ⟨by decide, by decide,
   claim_C9 1 (Accumulator.new ℤ) { tau := 2, alpha := 3, beta := 5 }
     (by decide) (by decide)⟩

theorem claim_C3_witness :
    declaredLengths (Accumulator.new ℤ) ∧ TAU_POWERS_G1_LENGTH / 1 ≠ 0
    ∧ applyChain 1 (Accumulator.new ℤ)
        [{ tau := 2, alpha := 3, beta := 5 }, { tau := 7, alpha := 11, beta := 13 }]
      = Accumulator.transform 1 (Accumulator.new ℤ)
          (prodKey [{ tau := 2, alpha := 3, beta := 5 },
                    { tau := 7, alpha := 11, beta := 13 }]) :=
  ⟨by decide, by decide,
   claim_C3 1 (Accumulator.new ℤ)
     [{ tau := 2, alpha := 3, beta := 5 }, { tau := 7, alpha := 11, beta := 13 }]
     (by decide) (by decide)⟩

section CompletenessClaim

variable {F : Type} [CommRing F]

lemma new_mapIdx_getD (n : ℕ) (f : ℕ → F → F) (i : ℕ) (hi : i < n) :
    ((List.replicate n (1 : F)).mapIdx f).getD i 0 = f i 1 := by
  rw [getD_mapIdx _ _ i (by simpa using hi), getD_replicate' _ _ _ hi]

lemma power_pairs_geom (ncpus : ℕ) (r : ℕ → F) (v : List F) (x c : F)
    (hn : v.length ≠ 0) (hv : ∀ i, i < v.length → v.getD i 0 = c * x ^ i) :
    power_pairs ncpus r v
      = some (∑ i ∈ Finset.range (v.length - 1), r i * (c * x ^ i),
              ∑ i ∈ Finset.range (v.length - 1), r i * (c * x ^ (i + 1))) := by
  rw [power_pairs_eq ncpus r v hn]
  have h1 : ∑ i ∈ Finset.range (v.length - 1), r i * v.getD i 0
      = ∑ i ∈ Finset.range (v.length - 1), r i * (c * x ^ i) :=
    Finset.sum_congr rfl fun i hi => by
      rw [hv i (by have := Finset.mem_range.mp hi; omega)]
  have h2 : ∑ i ∈ Finset.range (v.length - 1), r i * v.getD (i + 1) 0
      = ∑ i ∈ Finset.range (v.length - 1), r i * (c * x ^ (i + 1)) :=
    Finset.sum_congr rfl fun i hi => by
      rw [hv (i + 1) (by have := Finset.mem_range.mp hi; omega)]
  rw [h1, h2]

lemma sum_ratio1 (r : ℕ → F) (x c : F) (n : ℕ) :
    same_ratio (∑ i ∈ Finset.range n, r i * (c * x ^ i),
                ∑ i ∈ Finset.range n, r i * (c * x ^ (i + 1))) (1, x) := by
  simp only [same_ratio]
  rw [mul_one, Finset.sum_mul]
  exact Finset.sum_congr rfl fun i _ => by ring

lemma sum_ratio2 (r : ℕ → F) (x c : F) (n : ℕ) :
    same_ratio (1, x) (∑ i ∈ Finset.range n, r i * (c * x ^ i),
                       ∑ i ∈ Finset.range n, r i * (c * x ^ (i + 1))) := by
  simp only [same_ratio]
  rw [one_mul, Finset.mul_sum]
  exact Finset.sum_congr rfl fun i _ => by ring

/-- Claim C1: completeness of verification.  From the identity accumulator,
for every private key, every keypair randomness, and every choice of the
verifier's internal random coefficients (and worker count), verifying the
transform against the keypair-derived public key over the same 64-byte
digest returns true. -/
theorem claim_C1 [DecidableEq F] (sample : List ℕ → F)
    (blake2b : ℕ → List ℕ → F → F → List ℕ)
    (hblake : ∀ p d a b, 32 ≤ (blake2b p d a b).length)
    (digest : List ℕ) (hd : digest.length = 64)
    (tau alpha beta s_t s_a s_b : F) (pk : PublicKey F) (sk : PrivateKey F)
    (hkey : keypair sample blake2b digest tau alpha beta s_t s_a s_b = some (pk, sk))
    (ncpus_t : ℕ) (hcs : TAU_POWERS_G1_LENGTH / ncpus_t ≠ 0) :
    ∃ after, Accumulator.transform ncpus_t (Accumulator.new F) sk = some after
      ∧ ∀ (ncpus_v : ℕ) (r1 r2 r3 r4 : ℕ → F),
          verify_transform sample blake2b (Accumulator.new F) after pk digest
            ncpus_v r1 r2 r3 r4 = some true := by
  have hct : computeG2s sample blake2b 0 digest s_t (s_t * tau)
      = some (sample ((blake2b 0 digest s_t (s_t * tau)).take 32)) := by
    unfold computeG2s hash_to_g2
    rw [if_pos (hblake _ _ _ _)]
  have hca : computeG2s sample blake2b 1 digest s_a (s_a * alpha)
      = some (sample ((blake2b 1 digest s_a (s_a * alpha)).take 32)) := by
    unfold computeG2s hash_to_g2
    rw [if_pos (hblake _ _ _ _)]
  have hcb : computeG2s sample blake2b 2 digest s_b (s_b * beta)
      = some (sample ((blake2b 2 digest s_b (s_b * beta)).take 32)) := by
    unfold computeG2s hash_to_g2
    rw [if_pos (hblake _ _ _ _)]
  unfold keypair at hkey
  rw [if_pos hd] at hkey
  simp only [hct, hca, hcb, Option.some_bind, Option.some.injEq, Prod.mk.injEq] at hkey
  obtain ⟨hpk, hsk⟩ := hkey
  subst hpk
  subst hsk
  set gt := sample ((blake2b 0 digest s_t (s_t * tau)).take 32) with hgt
  set ga := sample ((blake2b 1 digest s_a (s_a * alpha)).take 32) with hga
  set gb := sample ((blake2b 2 digest s_b (s_b * beta)).take 32) with hgb
  have hlenA : declaredLengths (Accumulator.new F) := by
    unfold declaredLengths Accumulator.new
    simp
  refine ⟨transformSpec (Accumulator.new F) { tau := tau, alpha := alpha, beta := beta },
    transform_eq ncpus_t _ _ hlenA hcs, ?_⟩
  intro ncpus_v r1 r2 r3 r4
  set T := transformSpec (Accumulator.new F) { tau := tau, alpha := alpha, beta := beta }
    with hT
  have hL1 : T.tau_powers_g1.length = TAU_POWERS_G1_LENGTH := by
    rw [hT]
    simp [transformSpec, Accumulator.new, List.length_mapIdx]
  have hL2 : T.tau_powers_g2.length = TAU_POWERS_LENGTH := by
    rw [hT]
    simp [transformSpec, Accumulator.new, List.length_mapIdx]
  have hL3 : T.alpha_tau_powers_g1.length = TAU_POWERS_LENGTH := by
    rw [hT]
    simp [transformSpec, Accumulator.new, List.length_mapIdx]
  have hL4 : T.beta_tau_powers_g1.length = TAU_POWERS_LENGTH := by
    rw [hT]
    simp [transformSpec, Accumulator.new, List.length_mapIdx]
  have hT1 : ∀ i, i < T.tau_powers_g1.length → T.tau_powers_g1.getD i 0 = 1 * tau ^ i := by
    intro i hi
    rw [hL1] at hi
    rw [hT]
    simp only [transformSpec, Accumulator.new]
    rw [new_mapIdx_getD _ _ _ hi]
  have hT2 : ∀ i, i < T.tau_powers_g2.length → T.tau_powers_g2.getD i 0 = 1 * tau ^ i := by
    intro i hi
    rw [hL2] at hi
    rw [hT]
    simp only [transformSpec, Accumulator.new]
    rw [new_mapIdx_getD _ _ _ hi]
  have hT3 : ∀ i, i < T.alpha_tau_powers_g1.length →
      T.alpha_tau_powers_g1.getD i 0 = alpha * tau ^ i := by
    intro i hi
    rw [hL3] at hi
    rw [hT]
    simp only [transformSpec, Accumulator.new]
    rw [new_mapIdx_getD _ _ _ hi]
    ring
  have hT4 : ∀ i, i < T.beta_tau_powers_g1.length →
      T.beta_tau_powers_g1.getD i 0 = beta * tau ^ i := by
    intro i hi
    rw [hL4] at hi
    rw [hT]
    simp only [transformSpec, Accumulator.new]
    rw [new_mapIdx_getD _ _ _ hi]
    ring
  have e1 : T.tau_powers_g1.getD 0 0 = 1 := by
    rw [hT1 0 (by rw [hL1]; decide)]
    simp
  have e2 : T.tau_powers_g1.getD 1 0 = tau := by
    rw [hT1 1 (by rw [hL1]; decide)]
    simp
  have e3 : T.tau_powers_g2.getD 0 0 = 1 := by
    rw [hT2 0 (by rw [hL2]; decide)]
    simp
  have e4 : T.tau_powers_g2.getD 1 0 = tau := by
    rw [hT2 1 (by rw [hL2]; decide)]
    simp
  have e5 : T.alpha_tau_powers_g1.getD 0 0 = alpha := by
    rw [hT3 0 (by rw [hL3]; decide)]
    simp
  have e6 : T.beta_tau_powers_g1.getD 0 0 = beta := by
    rw [hT4 0 (by rw [hL4]; decide)]
    simp
  have e7 : T.beta_g2 = beta := by
    rw [hT]
    simp only [transformSpec, Accumulator.new]
    rw [one_mul]
  have eA1 : (Accumulator.new F).tau_powers_g1.getD 1 0 = 1 := by
    unfold Accumulator.new
    exact getD_replicate' 1 1 _ (by decide)
  have eA5 : (Accumulator.new F).alpha_tau_powers_g1.getD 0 0 = 1 := by
    unfold Accumulator.new
    exact getD_replicate' 1 0 _ (by decide)
  have eA6 : (Accumulator.new F).beta_tau_powers_g1.getD 0 0 = 1 := by
    unfold Accumulator.new
    exact getD_replicate' 1 0 _ (by decide)
  have eA7 : (Accumulator.new F).beta_g2 = 1 := rfl
  have hpp1 := power_pairs_geom ncpus_v r1 T.tau_powers_g1 tau 1
    (by rw [hL1]; decide) hT1
  have hpp2 := power_pairs_geom ncpus_v r2 T.tau_powers_g2 tau 1
    (by rw [hL2]; decide) hT2
  have hpp3 := power_pairs_geom ncpus_v r3 T.alpha_tau_powers_g1 tau alpha
    (by rw [hL3]; decide) hT3
  have hpp4 := power_pairs_geom ncpus_v r4 T.beta_tau_powers_g1 tau beta
    (by rw [hL4]; decide) hT4
  have hr1 : same_ratio (s_t, s_t * tau) (gt, gt * tau) := by
    simp only [same_ratio]
    ring
  have hr2 : same_ratio (s_a, s_a * alpha) (ga, ga * alpha) := by
    simp only [same_ratio]
    ring
  have hr3 : same_ratio (s_b, s_b * beta) (gb, gb * beta) := by
    simp only [same_ratio]
    ring
  have hr6 : same_ratio ((1 : F), tau) (gt, gt * tau) := by
    simp only [same_ratio]
    ring
  have hr7 : same_ratio ((1 : F), alpha) (ga, ga * alpha) := by
    simp only [same_ratio]
    ring
  have hr8 : same_ratio ((1 : F), beta) (gb, gb * beta) := by
    simp only [same_ratio]
    ring
  have hr9 : same_ratio ((1 : F), beta) ((1 : F), beta) := by
    simp only [same_ratio]
    ring
  have hP1 := sum_ratio1 r1 tau 1 (T.tau_powers_g1.length - 1)
  have hP2 := sum_ratio2 r2 tau 1 (T.tau_powers_g2.length - 1)
  have hP3 := sum_ratio1 r3 tau alpha (T.alpha_tau_powers_g1.length - 1)
  have hP4 := sum_ratio1 r4 tau beta (T.beta_tau_powers_g1.length - 1)
  have hP1' : same_ratio
      (∑ i ∈ Finset.range (T.tau_powers_g1.length - 1), r1 i * tau ^ i,
       ∑ i ∈ Finset.range (T.tau_powers_g1.length - 1), r1 i * tau ^ (i + 1))
      (1, tau) := by
    simpa using hP1
  have hP2' : same_ratio (1, tau)
      (∑ i ∈ Finset.range (T.tau_powers_g2.length - 1), r2 i * tau ^ i,
       ∑ i ∈ Finset.range (T.tau_powers_g2.length - 1), r2 i * tau ^ (i + 1)) := by
    simpa using hP2
  unfold verify_transform
  rw [if_pos hd]
  simp only [hct, hca, hcb, Option.some_bind]
  simp only [e1, e2, e3, e4, e5, e6, e7, eA1, eA5, eA6, eA7]
  simp only [hpp1, hpp2, hpp3, hpp4, Option.some_bind]
  simp [hr1, hr2, hr3, hr6, hr7, hr8, hr9, hP1, hP2, hP1', hP2', hP3, hP4]

end CompletenessClaim

theorem claim_C1_witness :
    (∀ (p : ℕ) (d : List ℕ) (a b : ℤ),
        32 ≤ ((fun _ _ _ _ => List.replicate 64 0) p d a b : List ℕ).length)
    ∧ (List.replicate 64 (0 : ℕ)).length = 64
    ∧ keypair (fun _ => (1 : ℤ)) (fun _ _ _ _ => List.replicate 64 0)
        (List.replicate 64 0) 1 1 1 1 1 1
      = some ({ tau_g1 := (1, 1 * 1), alpha_g1 := (1, 1 * 1), beta_g1 := (1, 1 * 1),
                tau_g2 := 1 * 1, alpha_g2 := 1 * 1, beta_g2 := 1 * 1 },
              { tau := 1, alpha := 1, beta := 1 })
    ∧ TAU_POWERS_G1_LENGTH / 1 ≠ 0
    ∧ ∃ after, Accumulator.transform 1 (Accumulator.new ℤ)
          { tau := 1, alpha := 1, beta := 1 } = some after
        ∧ ∀ (ncpus_v : ℕ) (r1 r2 r3 r4 : ℕ → ℤ),
            verify_transform (fun _ => (1 : ℤ)) (fun _ _ _ _ => List.replicate 64 0)
              (Accumulator.new ℤ) after
              { tau_g1 := (1, 1 * 1), alpha_g1 := (1, 1 * 1), beta_g1 := (1, 1 * 1),
                tau_g2 := 1 * 1, alpha_g2 := 1 * 1, beta_g2 := 1 * 1 }
              (List.replicate 64 0) ncpus_v r1 r2 r3 r4 = some true := by
  have hb : ∀ (p : ℕ) (d : List ℕ) (a b : ℤ),
      32 ≤ ((fun _ _ _ _ => List.replicate 64 0) p d a b : List ℕ).length := by
    intro p d a b
    simp
  refine ⟨hb, by decide, by decide, by decide, ?_⟩
  exact claim_C1 (fun _ => (1 : ℤ)) (fun _ _ _ _ => List.replicate 64 0) hb
    (List.replicate 64 0) (by decide) 1 1 1 1 1 1 _ _ (by decide) 1 (by decide)
